import Mathlib

/-!
Verification of the file-sharing client/server (server.cpp, client.cpp).

Bytes are modelled as natural numbers; a wire message is a `List Nat`.
String constants of the protocol are converted to byte lists with
`strBytes`.  Every definition mirrors a function or loop of the C++
source; the correspondence is noted in each doc comment.
-/

namespace FileShare

/-- Byte content of a string constant: each `char` of the C++ string as
its numeric value (ASCII here, so `Char.toNat` matches the C++ byte). -/
def strBytes (s : String) : List Nat :=
  s.data.map Char.toNat

/-- `ENCRYPTION_KEY = "mysecretkey"` (server.cpp line 44, client line 45). -/
def KEY : List Nat := strBytes "mysecretkey"

/-- Worker for `encryptDecrypt`: index `i` is the loop counter, each
output byte is `data[i] ^ key[i % key.size()]`. -/
def encDecAux (key : List Nat) : Nat → List Nat → List Nat
  | _, [] => []
  | i, b :: rest => (b ^^^ key.getD (i % key.length) 0) :: encDecAux key (i + 1) rest

/-- `encryptDecrypt` (server.cpp lines 64-70, client lines 52-58): XOR
each byte with the key byte at `index mod key length`. -/
def encryptDecrypt (key : List Nat) (data : List Nat) : List Nat :=
  encDecAux key 0 data

theorem encDecAux_length (key : List Nat) : ∀ (i : Nat) (l : List Nat),
    (encDecAux key i l).length = l.length := by
  intro i l
  induction l generalizing i with
  | nil => rfl
  | cons b rest ih => simp [encDecAux, ih]

theorem xor_xor_cancel (b k : Nat) : (b ^^^ k) ^^^ k = b := by
  rw [Nat.xor_assoc, Nat.xor_self, Nat.xor_zero]

theorem encDecAux_involutive (key : List Nat) : ∀ (i : Nat) (l : List Nat),
    encDecAux key i (encDecAux key i l) = l := by
  intro i l
  induction l generalizing i with
  | nil => rfl
  | cons b rest ih => simp [encDecAux, xor_xor_cancel, ih]

theorem encDecAux_getD (key : List Nat) : ∀ (l : List Nat) (i j : Nat),
    i < l.length →
    (encDecAux key j l).getD i 0 = l.getD i 0 ^^^ key.getD ((j + i) % key.length) 0 := by
  intro l
  induction l with
  | nil => intro i j h; simp at h
  | cons b rest ih =>
    intro i j h
    cases i with
    | zero => simp [encDecAux]
    | succ i =>
      have hi : i < rest.length := by
        have := h
        simp only [List.length_cons] at this
        omega
      have h2 := ih i (j + 1) hi
      have hj : j + 1 + i = j + (i + 1) := by omega
      rw [hj] at h2
      simpa [encDecAux] using h2

theorem encryptDecrypt_involutive (key : List Nat) (l : List Nat) :
    encryptDecrypt key (encryptDecrypt key l) = l :=
  encDecAux_involutive key 0 l

theorem encryptDecrypt_length (key : List Nat) (l : List Nat) :
    (encryptDecrypt key l).length = l.length :=
  encDecAux_length key 0 l

theorem encryptDecrypt_getD (key : List Nat) (l : List Nat) (i : Nat)
    (h : i < l.length) :
    (encryptDecrypt key l).getD i 0 = l.getD i 0 ^^^ key.getD (i % key.length) 0 := by
  simpa using encDecAux_getD key l i 0 h

/-- C1: The obfuscation codec is involutive and length-preserving, and each
output byte is the input byte XORed with the key byte at index mod key
length, for the fixed non-empty key `"mysecretkey"`. -/
theorem claim1_codec_involutive (x : List Nat) :
    encryptDecrypt KEY (encryptDecrypt KEY x) = x ∧
    (encryptDecrypt KEY x).length = x.length ∧
    KEY ≠ [] ∧
    ∀ i, i < x.length →
      (encryptDecrypt KEY x).getD i 0 = x.getD i 0 ^^^ KEY.getD (i % KEY.length) 0 := by
  refine ⟨encryptDecrypt_involutive KEY x, encryptDecrypt_length KEY x, by decide, ?_⟩
  intro i h
  exact encryptDecrypt_getD KEY x i h

/-- `BUFFER_SIZE = 4096` (server.cpp line 42, client line 43). -/
def BUFFER_SIZE : Nat := 4096

/-- Chunks produced by the C++ pattern
`while (file.read(buf, n) || file.gcount() > 0) { chunk(buf, gcount); ... }`:
the file is read sequentially in blocks of `n` bytes, the last block
possibly shorter; an empty file yields no blocks. -/
def chunkList (n : Nat) (l : List Nat) : List (List Nat) :=
  if l.isEmpty || n == 0 then []
  else l.take n :: chunkList n (l.drop n)
termination_by l.length
decreasing_by
  rename_i h
  simp only [Bool.or_eq_true, beq_iff_eq, List.isEmpty_iff] at h
  push_neg at h
  have h1 : l ≠ [] := h.1
  have h2 : n ≠ 0 := h.2
  have : 0 < l.length := List.length_pos.mpr h1
  simp only [List.length_drop]
  omega

theorem chunkList_nil (n : Nat) : chunkList n [] = [] := by
  rw [chunkList]; simp

theorem chunkList_cons (n : Nat) (hn : 0 < n) (l : List Nat) (hl : l ≠ []) :
    chunkList n l = l.take n :: chunkList n (l.drop n) := by
  rw [chunkList]
  have h1 : l.isEmpty = false := by simp [List.isEmpty_iff, hl]
  have h2 : (n == 0) = false := by simp; omega
  simp [h1, h2]

/-- Concatenating the blocks reproduces the file: streaming reads the whole
file sequentially. -/
theorem chunkList_join (n : Nat) (hn : 0 < n) (l : List Nat) :
    (chunkList n l).flatten = l := by
  have H : ∀ k (l : List Nat), l.length ≤ k → (chunkList n l).flatten = l := by
    intro k
    induction k with
    | zero =>
      intro l hl
      have : l = [] := List.eq_nil_of_length_eq_zero (Nat.le_zero.mp hl)
      subst this
      simp [chunkList_nil]
    | succ k ih =>
      intro l hl
      rcases eq_or_ne l [] with rfl | hne
      · simp [chunkList_nil]
      · rw [chunkList_cons n hn l hne]
        have hlen : (l.drop n).length ≤ k := by
          have : 0 < l.length := List.length_pos.mpr hne
          simp only [List.length_drop]
          omega
        simp [List.flatten, ih (l.drop n) hlen]
  exact H l.length l le_rfl

/-- Every streamed block is non-empty and at most `n` bytes long. -/
theorem chunkList_mem (n : Nat) (hn : 0 < n) (l : List Nat) :
    ∀ c ∈ chunkList n l, c ≠ [] ∧ c.length ≤ n := by
  have H : ∀ k (l : List Nat), l.length ≤ k →
      ∀ c ∈ chunkList n l, c ≠ [] ∧ c.length ≤ n := by
    intro k
    induction k with
    | zero =>
      intro l hl c hc
      have : l = [] := List.eq_nil_of_length_eq_zero (Nat.le_zero.mp hl)
      subst this
      simp [chunkList_nil] at hc
    | succ k ih =>
      intro l hl c hc
      rcases eq_or_ne l [] with rfl | hne
      · simp [chunkList_nil] at hc
      · rw [chunkList_cons n hn l hne] at hc
        rcases List.mem_cons.mp hc with hc1 | hc1
        · subst hc1
          constructor
          · have : 0 < l.length := List.length_pos.mpr hne
            simp only [ne_eq, ← List.length_eq_zero, List.length_take]
            omega
          · simp [List.length_take]
        · have hlen : (l.drop n).length ≤ k := by
            have : 0 < l.length := List.length_pos.mpr hne
            simp only [List.length_drop]
            omega
          exact ih (l.drop n) hlen c hc1
  exact H l.length l le_rfl

/-- Server upload receive loop (server.cpp lines 193-202):
`while (bytesReceived < fileSize) { chunk = receiveCommand(sock); if
(chunk.empty()) break; outFile.write(chunk, chunk.length); bytesReceived +=
chunk.length; }`.  `wire` is the stream of messages as they arrive on the
socket (encoded); the end of the list models a disconnect (`recv <= 0`).
Returns the bytes written to the file and the final counter. -/
def recvUpload (key : List Nat) (fileSize : Nat) : Nat → List (List Nat) → List Nat × Nat
  | b, [] => ([], b)
  | b, m :: rest =>
    if b < fileSize then
      let chunk := encryptDecrypt key m
      if chunk.length = 0 then ([], b)
      else
        let r := recvUpload key fileSize (b + chunk.length) rest
        (chunk ++ r.1, r.2)
    else ([], b)

/-- Result of the server's UPLOAD branch (server.cpp lines 176-211). -/
structure UploadResult where
  content : List Nat
  bytes : Nat
  response : String
deriving Repr, DecidableEq

/-- Server UPLOAD branch after `OK_UPLOAD` (server.cpp lines 192-211):
receive loop, then `if (bytesReceived == fileSize)` respond
`UPLOAD_SUCCESS` else `ERROR Upload incomplete.`. -/
def serverUpload (key : List Nat) (fileSize : Nat) (wire : List (List Nat)) : UploadResult :=
  let r := recvUpload key fileSize 0 wire
  { content := r.1
    bytes := r.2
    response := if r.2 = fileSize then "UPLOAD_SUCCESS" else "ERROR Upload incomplete." }

/-- Client download receive loop (client lines 114-135): truncates the
final chunk so the running total never passes `fileSize`
(`bytesToWrite = fileSize - bytesReceived` when it would).  Returns the
bytes written, the final counter, and the unread rest of the stream. -/
def clientRecvLoop (key : List Nat) (fileSize : Nat) :
    Nat → List (List Nat) → List Nat × Nat × List (List Nat)
  | b, [] => ([], b, [])
  | b, m :: rest =>
    if b < fileSize then
      let chunk := encryptDecrypt key m
      if chunk.length = 0 then ([], b, [])
      else
        let bytesToWrite := if fileSize < b + chunk.length then fileSize - b else chunk.length
        let w := chunk.take bytesToWrite
        let r := clientRecvLoop key fileSize (b + bytesToWrite) rest
        (w ++ r.1, r.2.1, r.2.2)
    else ([], b, m :: rest)

/-- Outcome of the client's `handleDownload` receive phase. -/
structure DlResult where
  content : List Nat
  bytes : Nat
  complete : Bool
  warned : Bool
deriving Repr, DecidableEq

/-- Client post-loop check (client lines 138-147): on
`bytesReceived >= fileSize` receive one more message and warn when it is
not `DOWNLOAD_DONE`; otherwise report an incomplete download. -/
def clientFinish (key : List Nat) (fileSize : Nat)
    (r : List Nat × Nat × List (List Nat)) : DlResult :=
  if fileSize ≤ r.2.1 then
    let doneMsg := match r.2.2 with
      | [] => ([] : List Nat)
      | m :: _ => encryptDecrypt key m
    { content := r.1, bytes := r.2.1, complete := true
      warned := doneMsg ≠ strBytes "DOWNLOAD_DONE" }
  else
    { content := r.1, bytes := r.2.1, complete := false, warned := false }

/-- Client download receive phase (client lines 114-147). -/
def clientDownload (key : List Nat) (fileSize : Nat) (wire : List (List Nat)) : DlResult :=
  clientFinish key fileSize (clientRecvLoop key fileSize 0 wire)

theorem recvUpload_len (key : List Nat) (fileSize : Nat) :
    ∀ (wire : List (List Nat)) (b : Nat),
      b ≤ (recvUpload key fileSize b wire).2 ∧
      (recvUpload key fileSize b wire).1.length = (recvUpload key fileSize b wire).2 - b := by
  intro wire
  induction wire with
  | nil => intro b; simp [recvUpload]
  | cons m rest ih =>
    intro b
    by_cases hb : b < fileSize
    · by_cases hc : (encryptDecrypt key m).length = 0
      · simp [recvUpload, hb, hc]
      · have h2 := ih (b + (encryptDecrypt key m).length)
        simp only [recvUpload, if_pos hb, if_neg hc]
        refine ⟨by omega, ?_⟩
        simp only [List.length_append]
        omega
    · simp [recvUpload, hb]

/-- When the wire carries exactly the encoded chunks whose lengths sum to
`fileSize - b` and none is empty, the receive loop writes their
concatenation and the counter ends exactly at `fileSize`. -/
theorem recvUpload_exact (key : List Nat) :
    ∀ (chunks : List (List Nat)) (b fileSize : Nat),
      (∀ c ∈ chunks, c ≠ []) →
      fileSize = b + (chunks.map List.length).sum →
      recvUpload key fileSize b (chunks.map (encryptDecrypt key)) = (chunks.flatten, fileSize) := by
  intro chunks
  induction chunks with
  | nil =>
    intro b fileSize _ hfs
    simp only [List.map_nil, List.sum_nil, Nat.add_zero] at hfs
    simp [recvUpload, hfs]
  | cons c cs ih =>
    intro b fileSize h hfs
    have hc : c ≠ [] := h c (List.mem_cons_self c cs)
    have hcs : ∀ x ∈ cs, x ≠ [] := fun x hx => h x (List.mem_cons_of_mem _ hx)
    have hclen : c.length ≠ 0 := fun h0 => hc (List.length_eq_zero.mp h0)
    have hsum : fileSize = b + (c.length + (cs.map List.length).sum) := by
      simpa using hfs
    have hb : b < fileSize := by omega
    simp only [List.map_cons, recvUpload, encryptDecrypt_involutive, if_pos hb, if_neg hclen]
    rw [ih (b + c.length) fileSize hcs (by omega)]
    simp

/-- The client's truncating loop: counter never passes `fileSize`, every
written byte is counted, the counter never decreases. -/
theorem clientRecvLoop_le (key : List Nat) (fileSize : Nat) :
    ∀ (wire : List (List Nat)) (b : Nat), b ≤ fileSize →
      (clientRecvLoop key fileSize b wire).2.1 ≤ fileSize ∧
      b ≤ (clientRecvLoop key fileSize b wire).2.1 ∧
      (clientRecvLoop key fileSize b wire).1.length
        = (clientRecvLoop key fileSize b wire).2.1 - b := by
  intro wire
  induction wire with
  | nil => intro b hb; simpa [clientRecvLoop] using hb
  | cons m rest ih =>
    intro b hb
    by_cases hlt : b < fileSize
    · by_cases hc : (encryptDecrypt key m).length = 0
      · simp [clientRecvLoop, hlt, hc, hb]
      · set len := (encryptDecrypt key m).length with hlen
        have hwrite : (if fileSize < b + len then fileSize - b else len) ≤ len := by
          split <;> omega
        set btw := if fileSize < b + len then fileSize - b else len with hbtw
        have hble : b + btw ≤ fileSize := by
          rw [hbtw]; split <;> omega
        have h2 := ih (b + btw) hble
        simp only [clientRecvLoop, if_pos hlt, if_neg hc, ← hlen, ← hbtw]
        refine ⟨h2.1, by omega, ?_⟩
        simp only [List.length_append, List.length_take, ← hlen]
        omega
    · simp only [clientRecvLoop, if_neg hlt]
      exact ⟨hb, le_rfl, by simp⟩

/-- When the wire carries exactly the encoded chunks summing to
`fileSize - b` followed by trailing messages, the client loop writes their
concatenation, ends exactly at `fileSize`, and leaves the trailing
messages unread. -/
theorem clientRecvLoop_exact (key : List Nat) :
    ∀ (chunks : List (List Nat)) (b fileSize : Nat) (rest : List (List Nat)),
      (∀ c ∈ chunks, c ≠ []) →
      fileSize = b + (chunks.map List.length).sum →
      clientRecvLoop key fileSize b (chunks.map (encryptDecrypt key) ++ rest)
        = (chunks.flatten, fileSize, rest) := by
  intro chunks
  induction chunks with
  | nil =>
    intro b fileSize rest _ hfs
    simp only [List.map_nil, List.sum_nil, Nat.add_zero] at hfs
    subst hfs
    cases rest with
    | nil => simp [clientRecvLoop]
    | cons m r => simp [clientRecvLoop]
  | cons c cs ih =>
    intro b fileSize rest h hfs
    have hc : c ≠ [] := h c (List.mem_cons_self c cs)
    have hcs : ∀ x ∈ cs, x ≠ [] := fun x hx => h x (List.mem_cons_of_mem _ hx)
    have hclen : c.length ≠ 0 := fun h0 => hc (List.length_eq_zero.mp h0)
    have hsum : fileSize = b + (c.length + (cs.map List.length).sum) := by
      simpa using hfs
    have hb : b < fileSize := by omega
    have hno : ¬ fileSize < b + c.length := by omega
    simp only [List.map_cons, List.cons_append, clientRecvLoop, encryptDecrypt_involutive,
      if_pos hb, if_neg hclen, if_neg hno, List.take_length, List.append_eq]
    rw [ih (b + c.length) fileSize rest hcs (by omega)]
    simp

/-- Chunks the client's upload sender produces (client lines 181-188):
blocks of `BUFFER_SIZE / 2 = 2048` bytes, encoded one message each. -/
def uploadWire (f : List Nat) : List (List Nat) :=
  (chunkList (BUFFER_SIZE / 2) f).map (encryptDecrypt KEY)

/-- The full round trip: the client uploads file content `f` (declared
size `f.length`, from `tellg`), the server stores what its receive loop
wrote; the server then streams the stored file back in `BUFFER_SIZE`
blocks followed by `DOWNLOAD_DONE` (server.cpp lines 162-170), announcing
the stored size, and the client download loop receives it. -/
def roundTrip (f : List Nat) : DlResult :=
  let stored := (serverUpload KEY f.length (uploadWire f)).content
  let dlWire := (chunkList BUFFER_SIZE stored).map (encryptDecrypt KEY)
      ++ [encryptDecrypt KEY (strBytes "DOWNLOAD_DONE")]
  clientDownload KEY stored.length dlWire

theorem serverUpload_roundtrip (f : List Nat) :
    serverUpload KEY f.length (uploadWire f) = ⟨f, f.length, "UPLOAD_SUCCESS"⟩ := by
  have hmem := chunkList_mem (BUFFER_SIZE / 2) (by decide) f
  have hne : ∀ c ∈ chunkList (BUFFER_SIZE / 2) f, c ≠ [] := fun c hc => (hmem c hc).1
  have hflat : (chunkList (BUFFER_SIZE / 2) f).flatten = f :=
    chunkList_join (BUFFER_SIZE / 2) (by decide) f
  have hsum : ((chunkList (BUFFER_SIZE / 2) f).map List.length).sum = f.length := by
    rw [← List.length_flatten, hflat]
  have h := recvUpload_exact KEY (chunkList (BUFFER_SIZE / 2) f) 0 f.length hne (by omega)
  rw [hflat] at h
  simp [serverUpload, uploadWire, h]

/-- C2: Round trip — uploading file content of any length `N` (covering
0, 1, chunk boundary − 1, exact chunk boundaries and several boundaries
plus remainder) and downloading it back yields byte-identical content,
the upload being acknowledged `UPLOAD_SUCCESS` and the download completing
without warning, assuming each sent message arrives as one message. -/
theorem claim2_roundtrip (f : List Nat) :
    (roundTrip f).content = f ∧ (roundTrip f).complete = true ∧
    (roundTrip f).warned = false ∧
    (serverUpload KEY f.length (uploadWire f)).response = "UPLOAD_SUCCESS" := by
  have hup := serverUpload_roundtrip f
  have hmem := chunkList_mem BUFFER_SIZE (by decide) f
  have hne : ∀ c ∈ chunkList BUFFER_SIZE f, c ≠ [] := fun c hc => (hmem c hc).1
  have hflat : (chunkList BUFFER_SIZE f).flatten = f :=
    chunkList_join BUFFER_SIZE (by decide) f
  have hsum : ((chunkList BUFFER_SIZE f).map List.length).sum = f.length := by
    rw [← List.length_flatten, hflat]
  have hloop := clientRecvLoop_exact KEY (chunkList BUFFER_SIZE f) 0 f.length
    [encryptDecrypt KEY (strBytes "DOWNLOAD_DONE")] hne (by omega)
  rw [hflat] at hloop
  have hcontent : roundTrip f =
      clientFinish KEY f.length (f, f.length, [encryptDecrypt KEY (strBytes "DOWNLOAD_DONE")]) := by
    rw [roundTrip]
    simp only [hup]
    rw [clientDownload]
    exact congrArg (clientFinish KEY f.length) hloop
  rw [hcontent, clientFinish]
  simp [encryptDecrypt_involutive, hup]

/-- C3: the server responds `UPLOAD_SUCCESS` exactly when the running
counter equals the declared size when the loop exits; otherwise (short
receive through disconnect, or overshoot past the declared size) it
responds with the incomplete-upload error, and every received byte was
written out (no content discarded, even on overshoot). -/
theorem claim3_upload_completion (fileSize : Nat) (wire : List (List Nat)) :
    ((serverUpload KEY fileSize wire).response = "UPLOAD_SUCCESS" ↔
      (serverUpload KEY fileSize wire).bytes = fileSize) ∧
    ((serverUpload KEY fileSize wire).response = "UPLOAD_SUCCESS" ∨
      (serverUpload KEY fileSize wire).response = "ERROR Upload incomplete.") ∧
    (serverUpload KEY fileSize wire).content.length = (serverUpload KEY fileSize wire).bytes := by
  have hlen := recvUpload_len KEY fileSize wire 0
  refine ⟨?_, ?_, ?_⟩
  · by_cases h : (recvUpload KEY fileSize 0 wire).2 = fileSize <;>
      simp [serverUpload, h]
  · by_cases h : (recvUpload KEY fileSize 0 wire).2 = fileSize <;>
      simp [serverUpload, h]
  · simpa [serverUpload] using hlen.2

/-- C4 counterexample: the server's upload receiver does NOT truncate.
With declared size 1, a single 2-byte message is written in full: the
count of bytes written (2) exceeds the declared size (1). -/
theorem claim4_counterexample :
    (serverUpload KEY 1 [encryptDecrypt KEY [65, 66]]).content.length = 2 ∧
    (serverUpload KEY 1 [encryptDecrypt KEY [65, 66]]).bytes = 2 ∧
    ¬ ((serverUpload KEY 1 [encryptDecrypt KEY [65, 66]]).content.length ≤ 1) := by
  decide

theorem clientFinish_content (key : List Nat) (fileSize : Nat)
    (r : List Nat × Nat × List (List Nat)) :
    (clientFinish key fileSize r).content = r.1 ∧
    (clientFinish key fileSize r).bytes = r.2.1 := by
  unfold clientFinish
  split <;> simp

/-- C4 (amended): only the client's download receiver truncates — its
byte counter never exceeds the declared size and it writes exactly the
counted bytes; the server's upload receiver writes every received byte
(its write count always equals its counter, with no truncation, so it can
exceed the declared size, as the counterexample shows). -/
theorem claim4_receiver_bounds (fileSize : Nat) (wire : List (List Nat)) :
    (clientDownload KEY fileSize wire).bytes ≤ fileSize ∧
    (clientDownload KEY fileSize wire).content.length
      = (clientDownload KEY fileSize wire).bytes ∧
    (serverUpload KEY fileSize wire).content.length
      = (serverUpload KEY fileSize wire).bytes := by
  have h := clientRecvLoop_le KEY fileSize wire 0 (Nat.zero_le _)
  have hfin := clientFinish_content KEY fileSize (clientRecvLoop KEY fileSize 0 wire)
  have hup := recvUpload_len KEY fileSize wire 0
  refine ⟨?_, ?_, ?_⟩
  · rw [clientDownload, hfin.2]; exact h.1
  · rw [clientDownload, hfin.1, hfin.2, h.2.2]; omega
  · simpa [serverUpload] using hup.2

theorem clientRecvLoop_done (key : List Nat) (fileSize : Nat) (rest : List (List Nat)) :
    clientRecvLoop key fileSize fileSize rest = ([], fileSize, rest) := by
  cases rest <;> simp [clientRecvLoop]

/-- C5: when a received content message would push the client's running
total past the declared size, only the remaining `fileSize - b` bytes are
written, the total lands exactly on `fileSize`, the loop stops without
consuming further messages; the post-loop step then reads one more
message and sets the warning flag (reporting completion regardless)
exactly when it is not `DOWNLOAD_DONE`. -/
theorem claim5_download_truncation (fileSize b : Nat) (chunk m : List Nat)
    (rest r2 : List (List Nat))
    (h1 : b < fileSize) (h2 : fileSize < b + chunk.length) :
    clientRecvLoop KEY fileSize b (encryptDecrypt KEY chunk :: rest)
      = (chunk.take (fileSize - b), fileSize, rest) ∧
    (clientFinish KEY fileSize (chunk.take (fileSize - b), fileSize, m :: r2)).complete = true ∧
    ((clientFinish KEY fileSize (chunk.take (fileSize - b), fileSize, m :: r2)).warned = true ↔
      encryptDecrypt KEY m ≠ strBytes "DOWNLOAD_DONE") := by
  have hclen : chunk.length ≠ 0 := by omega
  have hfill : b + (fileSize - b) = fileSize := by omega
  refine ⟨?_, ?_, ?_⟩
  · simp only [clientRecvLoop, encryptDecrypt_involutive, if_pos h1, if_neg hclen,
      if_pos h2, hfill, clientRecvLoop_done]
    simp
  · simp [clientFinish]
  · simp [clientFinish]

/-- Witness for C5 at declared size 3, running total 2, an incoming
3rd-and-4th-byte message, and a correct `DOWNLOAD_DONE` trailer. -/
theorem claim5_witness :
    clientRecvLoop KEY 3 2 (encryptDecrypt KEY [10, 20] :: [])
      = ([10, 20].take (3 - 2), 3, []) ∧
    (clientFinish KEY 3
      ([10, 20].take (3 - 2), 3,
        encryptDecrypt KEY (strBytes "DOWNLOAD_DONE") :: [])).complete = true ∧
    ((clientFinish KEY 3
      ([10, 20].take (3 - 2), 3,
        encryptDecrypt KEY (strBytes "DOWNLOAD_DONE") :: [])).warned = true ↔
      encryptDecrypt KEY (encryptDecrypt KEY (strBytes "DOWNLOAD_DONE"))
        ≠ strBytes "DOWNLOAD_DONE") :=
  claim5_download_truncation 3 2 [10, 20] (encryptDecrypt KEY (strBytes "DOWNLOAD_DONE"))
    [] [] (by decide) (by decide)

/-- Whitespace as `operator>>` on a `stringstream` skips it. -/
def isWS (c : Char) : Bool :=
  c == ' ' || c == '\t' || c == '\n' || c == '\r'

/-- Worker for `tokenize`: `cur` holds the characters of the token being
read, in reverse. -/
def tokenizeAux : List Char → List Char → List String
  | [], cur => if cur.isEmpty then [] else [String.mk cur.reverse]
  | c :: rest, cur =>
    if isWS c then
      if cur.isEmpty then tokenizeAux rest []
      else String.mk cur.reverse :: tokenizeAux rest []
    else tokenizeAux rest (c :: cur)

/-- The whitespace-delimited tokens `ss >> t1 >> t2 >> ...` extracts from
a command string; a missing token is read as `""` (extraction fails and
the string stays empty), modelled by `(tokenize cmd).getD i ""`. -/
def tokenize (s : String) : List String :=
  tokenizeAux s.data []

/-- `VALID_USERS` (server.cpp lines 47-50). -/
def VALID_USERS : List (String × String) :=
  [("user", "pass123"), ("admin", "adminpass")]

/-- `VALID_USERS.count(user) && VALID_USERS[user] == pass`
(server.cpp line 120). -/
def authenticate (user pass : String) : Bool :=
  match VALID_USERS.lookup user with
  | some stored => stored == pass
  | none => false

/-- Outcome of one command iteration of `handle_client` while the session
is unauthenticated. -/
structure AuthStep where
  response : String
  authenticated : Bool
  continued : Bool
deriving Repr, DecidableEq

/-- One iteration of `handle_client` while `!isAuthenticated`
(server.cpp lines 116-132), for a non-empty command string: `AUTH`
delegates to the credential check and flips the flag on success; any
other command draws the authentication-required error; every branch ends
in `continue`, never `break`. -/
def unauthStep (cmd : String) : AuthStep :=
  if (tokenize cmd).getD 0 "" = "AUTH" then
    if authenticate ((tokenize cmd).getD 1 "") ((tokenize cmd).getD 2 "") then
      ⟨"AUTH_SUCCESS", true, true⟩
    else ⟨"AUTH_FAIL", false, true⟩
  else ⟨"ERROR Authentication required.", false, true⟩

/-- The receive-and-dispatch step while unauthenticated, including the
empty-receive disconnect check (server.cpp lines 105-109): `none` models
the loop break on a closed connection. -/
def sessionStepUnauth (cmd : String) : Option AuthStep :=
  if cmd = "" then none else some (unauthStep cmd)

/-- C6: against the fixed credential table, `("user","pass123")` and
`("admin","adminpass")` are accepted (marking the session
authenticated), `("user","wrong")` and `("nouser","x")` are rejected;
every non-`AUTH` command received while unauthenticated draws the
authentication-required error, and no unauthenticated iteration — in
particular no rejection — ever closes the connection. -/
theorem claim6_auth_gate (cmd : String)
    (hne : cmd ≠ "") (h : (tokenize cmd).getD 0 "" ≠ "AUTH") :
    authenticate "user" "pass123" = true ∧
    authenticate "admin" "adminpass" = true ∧
    authenticate "user" "wrong" = false ∧
    authenticate "nouser" "x" = false ∧
    unauthStep "AUTH user pass123" = ⟨"AUTH_SUCCESS", true, true⟩ ∧
    unauthStep "AUTH user wrong" = ⟨"AUTH_FAIL", false, true⟩ ∧
    unauthStep "AUTH nouser x" = ⟨"AUTH_FAIL", false, true⟩ ∧
    sessionStepUnauth cmd = some ⟨"ERROR Authentication required.", false, true⟩ ∧
    (∀ c : String, (unauthStep c).continued = true) := by
  refine ⟨by decide, by decide, by decide, by decide, by decide, by decide, by decide, ?_, ?_⟩
  · unfold sessionStepUnauth unauthStep
    rw [if_neg hne, if_neg h]
  · intro c
    unfold unauthStep
    split
    · split <;> rfl
    · rfl

/-- Witness for C6 at the non-AUTH command `"LIST"`. -/
theorem claim6_witness :
    authenticate "user" "pass123" = true ∧
    authenticate "admin" "adminpass" = true ∧
    authenticate "user" "wrong" = false ∧
    authenticate "nouser" "x" = false ∧
    unauthStep "AUTH user pass123" = ⟨"AUTH_SUCCESS", true, true⟩ ∧
    unauthStep "AUTH user wrong" = ⟨"AUTH_FAIL", false, true⟩ ∧
    unauthStep "AUTH nouser x" = ⟨"AUTH_FAIL", false, true⟩ ∧
    sessionStepUnauth "LIST" = some ⟨"ERROR Authentication required.", false, true⟩ ∧
    (∀ c : String, (unauthStep c).continued = true) :=
  claim6_auth_gate "LIST" (by decide) (by decide)

/-- LIST response (server.cpp lines 136-141): starts from the header
`"Files on server:\n"` and appends each directory entry's name followed
by a newline. -/
def listResponse (files : List String) : String :=
  files.foldl (fun acc f => acc ++ f ++ "\n") "Files on server:\n"

/-- C7 counterexample: against a storage root holding exactly
`{"a.txt","b.txt"}`, the LIST message is not the two names alone (in
either order, with or without a trailing newline): it carries the header
line `Files on server:` as well. -/
theorem claim7_counterexample :
    listResponse ["a.txt", "b.txt"] = "Files on server:\na.txt\nb.txt\n" ∧
    listResponse ["a.txt", "b.txt"] ≠ "a.txt\nb.txt" ∧
    listResponse ["a.txt", "b.txt"] ≠ "b.txt\na.txt" ∧
    listResponse ["a.txt", "b.txt"] ≠ "a.txt\nb.txt\n" ∧
    listResponse ["a.txt", "b.txt"] ≠ "b.txt\na.txt\n" := by
  decide

/-- C7 (amended): LIST over a root with exactly two entries returns one
message consisting of the header line `Files on server:` followed by the
two names, each terminated by a newline. -/
theorem claim7_list_response (a b : String) :
    listResponse [a, b] = "Files on server:\n" ++ a ++ "\n" ++ b ++ "\n" :=
  rfl

/-- Result of the server's DOWNLOAD branch: the wire messages it sends
and whether the session loop continues. -/
structure SrvDl where
  sent : List (List Nat)
  continued : Bool
deriving Repr, DecidableEq

/-- Server DOWNLOAD branch (server.cpp lines 143-174): look up the file
(`none` = not openable), else send `OK_DOWNLOAD <size>`; then decode the
peer's readiness message; on anything but `START`, `continue` silently
(no data, no error); on `START`, stream the file in `BUFFER_SIZE` blocks
and send `DOWNLOAD_DONE`.  Every message goes through `sendResponse`,
hence is encoded; every path returns to the command loop
(`continued = true` — the branch contains no `break`). -/
def serverDownload (key : List Nat) (file : Option (List Nat))
    (readinessWire : List Nat) : SrvDl :=
  match file with
  | none => ⟨[encryptDecrypt key (strBytes "ERROR File not found.")], true⟩
  | some f =>
    let ok := encryptDecrypt key (strBytes ("OK_DOWNLOAD " ++ toString f.length))
    if encryptDecrypt key readinessWire = strBytes "START" then
      ⟨ok :: (chunkList BUFFER_SIZE f).map (encryptDecrypt key)
          ++ [encryptDecrypt key (strBytes "DOWNLOAD_DONE")], true⟩
    else ⟨[ok], true⟩

/-- C8: after the size acknowledgement, a readiness message decoding to
anything other than `START` makes the server send nothing further for
this command — no data, no error — and return to awaiting the next
command with the session open. -/
theorem claim8_silent_abort (f : List Nat) (readinessWire : List Nat)
    (h : encryptDecrypt KEY readinessWire ≠ strBytes "START") :
    serverDownload KEY (some f) readinessWire
      = ⟨[encryptDecrypt KEY (strBytes ("OK_DOWNLOAD " ++ toString f.length))], true⟩ := by
  simp [serverDownload, h]

/-- Witness for C8: an empty file and the readiness message `CANCEL`. -/
theorem claim8_witness :
    serverDownload KEY (some []) (encryptDecrypt KEY (strBytes "CANCEL"))
      = ⟨[encryptDecrypt KEY
            (strBytes ("OK_DOWNLOAD " ++ toString (List.length ([] : List Nat))))], true⟩ :=
  claim8_silent_abort [] (encryptDecrypt KEY (strBytes "CANCEL")) (by decide)

/-- C9: on receiving `START` the server sends, after the acknowledgement,
exactly the file's sequential `BUFFER_SIZE`-byte blocks (non-empty, at
most `BUFFER_SIZE` long, concatenating back to the whole file — end of
file is the only stop condition, with no sender-side byte accounting)
followed by exactly one `DOWNLOAD_DONE` sentinel, and continues the
session. -/
theorem claim9_streaming (f : List Nat) :
    (serverDownload KEY (some f) (encryptDecrypt KEY (strBytes "START"))).sent
      = encryptDecrypt KEY (strBytes ("OK_DOWNLOAD " ++ toString f.length))
        :: (chunkList BUFFER_SIZE f).map (encryptDecrypt KEY)
        ++ [encryptDecrypt KEY (strBytes "DOWNLOAD_DONE")] ∧
    (chunkList BUFFER_SIZE f).flatten = f ∧
    (∀ c ∈ chunkList BUFFER_SIZE f, c ≠ [] ∧ c.length ≤ BUFFER_SIZE) ∧
    (serverDownload KEY (some f) (encryptDecrypt KEY (strBytes "START"))).continued = true := by
  refine ⟨?_, chunkList_join BUFFER_SIZE (by decide) f,
    chunkList_mem BUFFER_SIZE (by decide) f, ?_⟩
  · simp [serverDownload, encryptDecrypt_involutive]
  · simp [serverDownload, encryptDecrypt_involutive]

/-- Client `handleDownload` readiness step (client lines 101-111): after
`OK_DOWNLOAD`, try to open the destination file; on failure send `CANCEL`
and return at once (the receive loop is never entered); on success send
`START` and proceed.  The pair is (wire messages sent, whether the
receive loop is entered). -/
def clientDownloadStart (key : List Nat) (canOpen : Bool) : List (List Nat) × Bool :=
  if canOpen then ([encryptDecrypt key (strBytes "START")], true)
  else ([encryptDecrypt key (strBytes "CANCEL")], false)

/-- C10: when the destination cannot be opened the client sends `CANCEL`
instead of `START` and returns without entering the receive loop; on the
server this non-`START` token takes the silent-abort path, so beyond the
acknowledgement no content and no error message is ever sent for that
command and the session stays open. -/
theorem claim10_cancel_path (f : List Nat) :
    clientDownloadStart KEY false = ([encryptDecrypt KEY (strBytes "CANCEL")], false) ∧
    serverDownload KEY (some f) (encryptDecrypt KEY (strBytes "CANCEL"))
      = ⟨[encryptDecrypt KEY (strBytes ("OK_DOWNLOAD " ++ toString f.length))], true⟩ := by
  refine ⟨rfl, ?_⟩
  have h : encryptDecrypt KEY (encryptDecrypt KEY (strBytes "CANCEL")) ≠ strBytes "START" := by
    decide
  simp [serverDownload, h]

end FileShare
